import Mathlib

/-!
Verification of the multiget download core (src/src/index.ts).

The TypeScript source is shallowly embedded: JavaScript numbers on the
code paths below always hold integers, so they are modelled as `Int`
(with JavaScript's truncated `%` and `/` on exact divisions modelled by
`Int.tmod` and `Int.tdiv`); header maps become `String → Option String`;
the HTTP server becomes a function from the range-header string sent to
the response received; thrown errors become an `Except` error value.
-/

namespace Multiget

/-- Embeds the TypeScript interface Chunk (fields size, offset). -/
structure Chunk where
  size : Int
  offset : Int
deriving Repr, DecidableEq, Inhabited

/-- The part of an axios GET response the code consults: status and body. -/
structure GetResponse where
  status : Int
  data : List Nat
deriving Repr, DecidableEq, Inhabited

/-- Embeds the element shape { chunk, response } built by download's map. -/
structure ChunkResult where
  chunk : Chunk
  response : GetResponse
deriving Repr, DecidableEq, Inhabited

/-- The two errors download can throw itself (transport errors from axios
are outside the embedded control flow). A JavaScript Error carries only
its message string, so the invalid-responses error holds the rendered
template-literal message, not a structured offender list. -/
inductive DownloadError where
  | unsupportedRange (url : String)
  | invalidResponses (message : String)
deriving Repr, DecidableEq

/-- The header key read by acceptsRanges. -/
def acceptRangesKey : String := "accept-ranges"

/-- The header value that signals no range support. -/
def noneValue : String := "none"

/-- Embeds acceptsRanges: !(h === 'none' || h === undefined), where the
header map lookup yields `none` for an absent header (undefined). -/
def acceptsRanges (headers : String → Option String) : Bool :=
  let acceptRangesHeader := headers acceptRangesKey
  !(acceptRangesHeader == some noneValue || acceptRangesHeader == none)

/-- Embeds formatChunk: the template string offset-(offset + size). -/
def formatChunk (chunk : Chunk) : String :=
  toString chunk.offset ++ "-" ++ toString (chunk.offset + chunk.size)

/-- The forEach loop of getChunks: each iteration pushes
{ size: chunkSize - 1, offset: offset + 1 } and then advances
offset by chunkSize; k is the number of remaining iterations. -/
def restChunks (chunkSize : Int) : Int → Nat → List Chunk
  | _, 0 => []
  | offset, k + 1 =>
      { size := chunkSize - 1, offset := offset + 1 } ::
        restChunks chunkSize (offset + chunkSize) k

/-- Embeds getChunks. JavaScript's % on numbers is truncated remainder
(`Int.tmod`); the division is exact by construction and JavaScript's /
agrees with truncated division (`Int.tdiv`) there. -/
def getChunks (contentLength : Int) (numberOfChunks : Nat)
    (contentLengthLimit : Int) : List Chunk :=
  let cap := if contentLength > contentLengthLimit
             then contentLengthLimit else contentLength
  let len := cap - 1
  let bytesToRedistribute := Int.tmod len numberOfChunks
  let chunkSize := Int.tdiv (len - bytesToRedistribute) numberOfChunks
  let firstChunkSize := chunkSize + bytesToRedistribute
  { size := firstChunkSize, offset := 0 } ::
    restChunks chunkSize firstChunkSize (numberOfChunks - 1)

/-- One chunk fetch of download's Promise.all map: a GET carrying the
range header bytes=formatChunk(chunk), paired with its chunk. -/
def fetchChunk (server : String → GetResponse) (chunk : Chunk) : ChunkResult :=
  let rangeHeader := "bytes=" ++ formatChunk chunk
  { chunk := chunk, response := server rangeHeader }

/-- The ordered result sequence of download's Promise.all: one result per
planned chunk, at the chunk's own index. -/
def downloadResults (server : String → GetResponse) (chunks : List Chunk) :
    List ChunkResult :=
  chunks.map (fetchChunk server)

/-- JavaScript String() of a plain object such as { chunk, response }:
always the literal text [object Object], whatever the fields hold. -/
def objectToString (_ : ChunkResult) : String := "[object Object]"

/-- JavaScript Array.prototype.toString, as invoked by interpolating an
array into a template literal: the elements stringified and joined with
commas. -/
def arrayToString (rs : List ChunkResult) : String :=
  String.intercalate (",") (rs.map objectToString)

/-- Embeds download's lines 98-107: filter the non-206 responses, throw an
aggregated Error if any, otherwise concatenate the payloads in order. The
thrown Error's message is the template literal of line 102, which renders
the offender array via JavaScript stringification. -/
def validateAndAssemble (responses : List ChunkResult) :
    Except DownloadError (List Nat) :=
  let invalidRespones := responses.filter (fun r => !(r.response.status == 206))
  if invalidRespones.length ≠ 0 then
    Except.error (DownloadError.invalidResponses
      ("received invalid responses:\n " ++ arrayToString invalidRespones))
  else
    Except.ok ((responses.map (fun r => r.response.data)).flatten)

/-- Embeds download. The head response is split into its header map and
the numeric value of its content-length header; the network is the
`server` function from range-header string to response. -/
def download (url : String) (headHeaders : String → Option String)
    (contentLength : Int) (server : String → GetResponse)
    (numberOfChunks : Nat) (limit : Int) : Except DownloadError (List Nat) :=
  if !(acceptsRanges headHeaders) then
    Except.error (DownloadError.unsupportedRange url)
  else
    let chunks := getChunks contentLength numberOfChunks limit
    validateAndAssemble (downloadResults server chunks)

/-- x lies in the inclusive byte interval [offset, offset + size] of c. -/
def covers (c : Chunk) (x : Int) : Prop :=
  c.offset ≤ x ∧ x ≤ c.offset + c.size

instance (c : Chunk) (x : Int) : Decidable (covers c x) := by
  unfold covers; infer_instance

/-- Model of the JavaScript runtime's Promise.all result gathering: tasks
are identified by index 0..n-1, `completed` lists the indices in the order
their responses arrive, and each arrival writes its result into the slot
at its own index. Download's ordering guarantee rests on this semantics. -/
def runTasksInOrder (run : Nat → α) : List Nat → List (Option α) → List (Option α)
  | [], slots => slots
  | i :: rest, slots => runTasksInOrder run rest (slots.set i (some (run i)))

/-- A concrete result sequence with one offending (non-206) entry. -/
def sampleResults : List ChunkResult :=
  [{ chunk := { size := 252, offset := 0 },
     response := { status := 206, data := [1, 2] } },
   { chunk := { size := 248, offset := 253 },
     response := { status := 404, data := [] } }]

/-- A second result sequence whose offending entry has a different range
(500 to 600) and a different status (500) than the offender of
sampleResults. -/
def sampleResultsB : List ChunkResult :=
  [{ chunk := { size := 252, offset := 0 },
     response := { status := 206, data := [1, 2] } },
   { chunk := { size := 100, offset := 500 },
     response := { status := 500, data := [] } }]

/-! Helper lemmas about the planner loop. -/

lemma restChunks_length (cs off : Int) (k : Nat) :
    (restChunks cs off k).length = k := by
  induction k generalizing off with
  | zero => rfl
  | succ k ih => simp [restChunks, ih]

lemma restChunks_sum (cs off : Int) (k : Nat) :
    ((restChunks cs off k).map (fun c => c.size + 1)).sum = (k : Int) * cs := by
  induction k generalizing off with
  | zero => simp [restChunks]
  | succ k ih =>
    simp only [restChunks, List.map_cons, List.sum_cons, ih (off + cs)]
    push_cast
    ring

/-- Normal form of getChunks for a positive chunk count: the cap is a min,
and the exact division collapses to a single truncated division. -/
lemma getChunks_eq (tl sl : Int) (n : Nat) (hn : 1 ≤ n) :
    getChunks tl n sl =
      { size := Int.tdiv (min tl sl - 1) n + Int.tmod (min tl sl - 1) n,
        offset := 0 } ::
        restChunks (Int.tdiv (min tl sl - 1) n)
          (Int.tdiv (min tl sl - 1) n + Int.tmod (min tl sl - 1) n) (n - 1) := by
  have hn0 : ((n : Int)) ≠ 0 := by
    have h1 : (1 : Int) ≤ (n : Int) := by exact_mod_cast hn
    omega
  have hcap : (if tl > sl then sl else tl) = min tl sl := by
    rcases le_or_lt tl sl with h | h
    · rw [if_neg (not_lt.mpr h), min_eq_left h]
    · rw [if_pos h, min_eq_right h.le]
  have hdiv : Int.tdiv (min tl sl - 1 - Int.tmod (min tl sl - 1) n) n
      = Int.tdiv (min tl sl - 1) n := by
    have h1 : min tl sl - 1 - Int.tmod (min tl sl - 1) n
        = (n : Int) * Int.tdiv (min tl sl - 1) n := by
      have h2 := Int.tdiv_add_tmod (min tl sl - 1) (n : Int)
      linarith
    rw [h1, Int.mul_tdiv_cancel_left _ hn0]
  simp only [getChunks, hcap, hdiv]

lemma restChunks_covers (cs : Int) (hcs : 0 ≤ cs) (off : Int) (k : Nat)
    (x : Int) :
    (∃ c ∈ restChunks cs off k, covers c x) ↔
      (off + 1 ≤ x ∧ x ≤ off + (k : Int) * cs) := by
  induction k generalizing off with
  | zero =>
    simp only [restChunks, List.not_mem_nil, false_and, exists_false,
      false_iff, Nat.cast_zero, zero_mul, add_zero, not_and, not_le]
    omega
  | succ k ih =>
    simp only [restChunks, List.mem_cons, exists_eq_or_imp, ih (off + cs)]
    unfold covers
    have hkc : 0 ≤ (k : Int) * cs := mul_nonneg (by positivity) hcs
    push_cast
    constructor
    · rintro (⟨h1, h2⟩ | ⟨h1, h2⟩)
      · constructor
        · omega
        · nlinarith
      · constructor
        · omega
        · nlinarith
    · rintro ⟨h1, h2⟩
      rcases le_or_lt x (off + cs) with h3 | h3
      · left; omega
      · right
        constructor
        · omega
        · nlinarith

lemma restChunks_pairwise_disjoint (cs : Int) (hcs : 0 ≤ cs) (off : Int)
    (k : Nat) :
    (restChunks cs off k).Pairwise
      (fun c₁ c₂ => ∀ x : Int, covers c₁ x → ¬ covers c₂ x) := by
  induction k generalizing off with
  | zero => exact List.Pairwise.nil
  | succ k ih =>
    refine List.Pairwise.cons ?_ (ih (off + cs))
    intro c hc x hx1 hx2
    have h2 := (restChunks_covers cs hcs (off + cs) k x).mp ⟨c, hc, hx2⟩
    have hx1a : off + 1 ≤ x ∧ x ≤ off + 1 + (cs - 1) := hx1
    omega

/-- Bounds and decomposition of the planner's truncated division for a
nonnegative span and a positive chunk count. -/
lemma planner_bounds (len : Int) (n : Nat) (h0 : 0 ≤ len) (hn : 1 ≤ n) :
    0 ≤ Int.tmod len n ∧ Int.tmod len n < n ∧ 0 ≤ Int.tdiv len n ∧
      (n : Int) * Int.tdiv len n + Int.tmod len n = len := by
  have hn1 : (1 : Int) ≤ (n : Int) := by exact_mod_cast hn
  exact ⟨Int.tmod_nonneg _ h0, Int.tmod_lt_of_pos len (by omega),
    Int.tdiv_nonneg h0 (by omega), Int.tdiv_add_tmod len n⟩

/-- Claim C1: for valid inputs (positive totalLength, chunkCount and
sizeLimit), the planned chunks' inclusive intervals
[offset, offset + size] cover exactly the interval
[0, min totalLength sizeLimit - 1] and are pairwise non-overlapping. -/
theorem getChunks_tiling (tl sl : Int) (n : Nat)
    (htl : 1 ≤ tl) (hsl : 1 ≤ sl) (hn : 1 ≤ n) :
    (∀ x : Int, (∃ c ∈ getChunks tl n sl, covers c x) ↔
        (0 ≤ x ∧ x ≤ min tl sl - 1)) ∧
    (getChunks tl n sl).Pairwise
      (fun c₁ c₂ => ∀ x : Int, covers c₁ x → ¬ covers c₂ x) := by
  have hlen0 : 0 ≤ min tl sl - 1 := by
    rcases le_total tl sl with h | h
    · rw [min_eq_left h]; omega
    · rw [min_eq_right h]; omega
  rw [getChunks_eq tl sl n hn]
  obtain ⟨hr0, hrn, hcs0, hid⟩ := planner_bounds (min tl sl - 1) n hlen0 hn
  set len := min tl sl - 1 with hlendef
  set r := Int.tmod len (n : Int) with hrdef
  set cs := Int.tdiv len (n : Int) with hcsdef
  have hcast : ((n - 1 : Nat) : Int) = (n : Int) - 1 := by omega
  have hE0 : 0 ≤ ((n - 1 : Nat) : Int) * cs := mul_nonneg (by positivity) hcs0
  have hF : cs + r + ((n - 1 : Nat) : Int) * cs = len := by
    rw [hcast]; linear_combination hid
  constructor
  · intro x
    simp only [List.mem_cons, exists_eq_or_imp]
    rw [restChunks_covers cs hcs0 _ _ x]
    have hc0 : covers { size := cs + r, offset := 0 } x ↔
        ((0 : Int) ≤ x ∧ x ≤ 0 + (cs + r)) := Iff.rfl
    rw [hc0]
    constructor
    · rintro (⟨h1, h2⟩ | ⟨h1, h2⟩)
      · exact ⟨h1, by linarith⟩
      · exact ⟨by linarith, by linarith⟩
    · rintro ⟨h1, h2⟩
      rcases le_or_lt x (cs + r) with h3 | h3
      · exact Or.inl ⟨h1, by linarith⟩
      · exact Or.inr ⟨by linarith, by linarith⟩
  · rw [List.pairwise_cons]
    refine ⟨?_, restChunks_pairwise_disjoint cs hcs0 _ _⟩
    intro c hc x hx1 hx2
    have h2 := (restChunks_covers cs hcs0 _ _ x).mp ⟨c, hc, hx2⟩
    have hx1a : (0 : Int) ≤ x ∧ x ≤ 0 + (cs + r) := hx1
    have h2a := h2.1
    linarith

/-- Witness for C1 at the spec's concrete scenario. -/
theorem getChunks_tiling_witness :
    (∀ x : Int, (∃ c ∈ getChunks 1000 4 10000, covers c x) ↔
        (0 ≤ x ∧ x ≤ min 1000 10000 - 1)) ∧
    (getChunks 1000 4 10000).Pairwise
      (fun c₁ c₂ => ∀ x : Int, covers c₁ x → ¬ covers c₂ x) :=
  getChunks_tiling 1000 10000 4 (by decide) (by decide) (by decide)

/-- Claim C2: the byte counts (size + 1) of the planned chunks sum to the
effective length min totalLength sizeLimit, for every positive chunk
count and arbitrary integer lengths. -/
theorem getChunks_coverage_sum (tl sl : Int) (n : Nat) (hn : 1 ≤ n) :
    ((getChunks tl n sl).map (fun c => c.size + 1)).sum = min tl sl := by
  rw [getChunks_eq tl sl n hn, List.map_cons, List.sum_cons, restChunks_sum]
  have hid := Int.tdiv_add_tmod (min tl sl - 1) (n : Int)
  have hcast : ((n - 1 : Nat) : Int) = (n : Int) - 1 := by omega
  rw [hcast]
  linear_combination hid

/-- Witness for C2 at the spec's capped scenario: the covered byte total
is 1,000,000, not 2,000,000. -/
theorem getChunks_coverage_sum_witness :
    ((getChunks 2000000 4 1000000).map (fun c => c.size + 1)).sum
      = min 2000000 1000000 :=
  getChunks_coverage_sum 2000000 1000000 4 (by decide)

/-- Claim C10: the planner returns exactly numberOfChunks chunks for every
positive chunk count, whatever the lengths. -/
theorem getChunks_length (tl sl : Int) (n : Nat) (hn : 1 ≤ n) :
    (getChunks tl n sl).length = n := by
  rw [getChunks_eq tl sl n hn]
  rw [List.length_cons, restChunks_length]
  omega

/-- Witness for C10 in a degenerate case: effective length 2 is smaller
than the chunk count 3, yet 3 chunks are returned. -/
theorem getChunks_length_witness : (getChunks 2 3 1000).length = 3 :=
  getChunks_length 2 1000 3 (by decide)

/-- Claim C4: the two concrete planner scenarios of the spec. -/
theorem getChunks_concrete_scenarios :
    getChunks 1000 4 10000 =
      [{ size := 252, offset := 0 }, { size := 248, offset := 253 },
       { size := 248, offset := 502 }, { size := 248, offset := 751 }] ∧
    (getChunks 1000 4 10000).map (fun c => (c.offset, c.offset + c.size)) =
      [(0, 252), (253, 501), (502, 750), (751, 999)] ∧
    (getChunks 100 3 1000).map (fun c => (c.offset, c.offset + c.size)) =
      [(0, 33), (34, 66), (67, 99)] := by
  refine ⟨by decide, by decide, by decide⟩

/-- The offsets produced by the planner loop are strictly increasing once
the uniform chunk size is at least 1. -/
lemma restChunks_offsets_chain (cs : Int) (hcs : 1 ≤ cs) (off : Int)
    (k : Nat) :
    ((restChunks cs off k).map Chunk.offset).Chain' (· < ·) := by
  induction k generalizing off with
  | zero => simp [restChunks]
  | succ k ih =>
    rw [restChunks, List.map_cons, List.chain'_cons']
    refine ⟨?_, ih (off + cs)⟩
    intro y hy
    cases k with
    | zero => simp [restChunks] at hy
    | succ m =>
      rw [restChunks, List.map_cons, List.head?_cons] at hy
      simp only [Option.mem_some_iff] at hy
      subst hy
      show off + 1 < off + cs + 1
      omega

/-- Claim C3, counterexample: at totalLength 2, chunkCount 3,
sizeLimit 1000 the planned offsets are 0, 2, 2, which are not strictly
increasing, so the claim fails as stated over all valid inputs. -/
theorem getChunks_offsets_counterexample :
    ¬ ((getChunks 2 3 1000).map Chunk.offset).Pairwise (· < ·) := by
  intro hc
  rw [show (getChunks 2 3 1000).map Chunk.offset = [0, 2, 2] from by decide]
    at hc
  simp [List.pairwise_cons] at hc

/-- Claim C3, amended: chunk 0 always starts at offset 0, and the offsets
are strictly increasing whenever the effective length exceeds the chunk
count (the original claim asserted this for all valid inputs). -/
theorem getChunks_offsets_amended (tl sl : Int) (n : Nat) (hn : 1 ≤ n)
    (heff : (n : Int) + 1 ≤ min tl sl) :
    ((getChunks tl n sl).map Chunk.offset).Pairwise (· < ·) ∧
    ((getChunks tl n sl).map Chunk.offset).head? = some 0 := by
  have hn1 : (1 : Int) ≤ (n : Int) := by exact_mod_cast hn
  have hlen0 : 0 ≤ min tl sl - 1 := by linarith
  rw [getChunks_eq tl sl n hn]
  obtain ⟨hr0, hrn, hcs0, hid⟩ := planner_bounds (min tl sl - 1) n hlen0 hn
  set len := min tl sl - 1 with hlendef
  set r := Int.tmod len (n : Int) with hrdef
  set cs := Int.tdiv len (n : Int) with hcsdef
  have hlenn : (n : Int) ≤ len := by linarith
  have hcs1 : 1 ≤ cs := by
    rcases le_or_lt 1 cs with h | h
    · exact h
    · exfalso
      have hle : cs ≤ 0 := by omega
      have hnp : (n : Int) * cs ≤ 0 :=
        mul_nonpos_iff.mpr (Or.inl ⟨by linarith, hle⟩)
      linarith
  refine ⟨?_, rfl⟩
  rw [← List.chain'_iff_pairwise, List.map_cons, List.chain'_cons']
  refine ⟨?_, restChunks_offsets_chain cs hcs1 _ _⟩
  intro y hy
  cases hk : n - 1 with
  | zero => rw [hk] at hy; simp [restChunks] at hy
  | succ m =>
    rw [hk, restChunks, List.map_cons, List.head?_cons] at hy
    simp only [Option.mem_some_iff] at hy
    subst hy
    show (0 : Int) < cs + r + 1
    omega

/-- Witness for the amended C3 at the spec's concrete scenario. -/
theorem getChunks_offsets_amended_witness :
    ((getChunks 1000 4 10000).map Chunk.offset).Pairwise (· < ·) ∧
    ((getChunks 1000 4 10000).map Chunk.offset).head? = some 0 :=
  getChunks_offsets_amended 1000 10000 4 (by decide) (by decide)

/-- Claim C5: the capability check is false exactly when the
accept-ranges header is absent or is the string none, and true for every
other value. -/
theorem acceptsRanges_characterization (headers : String → Option String) :
    acceptsRanges headers = false ↔
      (headers acceptRangesKey = none ∨
        headers acceptRangesKey = some noneValue) := by
  unfold acceptsRanges
  cases h : headers acceptRangesKey with
  | none => simp [h]
  | some v =>
    by_cases hv : v = noneValue
    · subst hv; simp [h]
    · simp [h, hv]

/-- Witness for C5 at a concrete header map carrying bytes. -/
theorem acceptsRanges_characterization_witness :
    acceptsRanges (fun _ => some ("bytes")) = false ↔
      ((fun (_ : String) => some ("bytes")) acceptRangesKey = none ∨
        (fun (_ : String) => some ("bytes")) acceptRangesKey
          = some noneValue) :=
  acceptsRanges_characterization (fun _ => some ("bytes"))

/-- Claim C6: when the probe says ranges are unsupported, download fails
with the unsupported-range error. The server is universally quantified
and never consulted, so no range request and no whole-file fallback is
performed. -/
theorem download_unsupported_range (url : String)
    (headHeaders : String → Option String) (contentLength : Int)
    (server : String → GetResponse) (numberOfChunks : Nat) (limit : Int)
    (h : acceptsRanges headHeaders = false) :
    download url headHeaders contentLength server numberOfChunks limit
      = Except.error (DownloadError.unsupportedRange url) := by
  unfold download
  rw [h]
  rfl

/-- Witness for C6: absent accept-ranges header at concrete inputs. -/
theorem download_unsupported_range_witness :
    acceptsRanges (fun _ => none) = false ∧
    download ("http") (fun _ => none) 1000
        (fun _ => { status := 206, data := [] }) 4 10000
      = Except.error (DownloadError.unsupportedRange ("http")) :=
  ⟨rfl, download_unsupported_range ("http") (fun _ => none) 1000
    (fun _ => { status := 206, data := [] }) 4 10000 rfl⟩

/-- Validation fails exactly when some status differs from 206; the
single error is built from the full offender filter (not only the first
offender), and on all-206 input the payloads pass through in order. -/
lemma validateAndAssemble_fails_iff (responses : List ChunkResult) :
    validateAndAssemble responses =
      (if ∃ r ∈ responses, r.response.status ≠ 206 then
        Except.error (DownloadError.invalidResponses
          ("received invalid responses:\n " ++ arrayToString
            (responses.filter (fun r => !(r.response.status == 206)))))
      else
        Except.ok ((responses.map (fun r => r.response.data)).flatten)) := by
  unfold validateAndAssemble
  by_cases h : ∃ r ∈ responses, r.response.status ≠ 206
  · rw [if_pos h]
    obtain ⟨r, hr, hs⟩ := h
    have hin : r ∈ responses.filter (fun r => !(r.response.status == 206)) :=
      List.mem_filter.mpr ⟨hr, by simpa using hs⟩
    have hlen : (responses.filter (fun r => !(r.response.status == 206))).length ≠ 0 := by
      intro h0
      rw [List.length_eq_zero] at h0
      rw [h0] at hin
      exact (List.not_mem_nil r) hin
    rw [if_pos hlen]
  · rw [if_neg h]
    push_neg at h
    have hnil : responses.filter (fun r => !(r.response.status == 206)) = [] := by
      rw [List.filter_eq_nil_iff]
      intro a ha
      simp [h a ha]
    rw [hnil]
    simp

/-- Claim C7 (code bug): the code does fail on a non-206 status with a
single error built from the full offender filter, but the
template-literal message renders every offender as [object Object]: two
result sequences whose offenders differ in both range and status yield
the identical error value, so the failure identifies neither the
offending chunk's range nor its received status, contrary to the claim
and the spec's stated intent. -/
theorem validateAndAssemble_message_collision :
    validateAndAssemble sampleResults =
      Except.error (DownloadError.invalidResponses
        ("received invalid responses:\n [object Object]")) ∧
    validateAndAssemble sampleResultsB =
      Except.error (DownloadError.invalidResponses
        ("received invalid responses:\n [object Object]")) ∧
    sampleResults ≠ sampleResultsB := by
  refine ⟨rfl, rfl, by decide⟩

/-- Claim C8: each chunk's request carries the range header
bytes=offset-(offset+size), and both written ends are covered by the
chunk's inclusive interval. -/
theorem downloadResults_range_headers (server : String → GetResponse)
    (chunks : List Chunk) :
    downloadResults server chunks =
      chunks.map (fun c =>
        { chunk := c,
          response := server
            ("bytes=" ++ (toString c.offset ++ "-"
              ++ toString (c.offset + c.size))) }) ∧
    ∀ c : Chunk, 0 ≤ c.size →
      (covers c c.offset ∧ covers c (c.offset + c.size)) := by
  refine ⟨rfl, ?_⟩
  intro c hc
  exact ⟨⟨le_refl _, by omega⟩, ⟨by omega, le_refl _⟩⟩

/-- Witness for C8 at one concrete chunk and server. -/
theorem downloadResults_range_headers_witness :
    downloadResults (fun _ => { status := 206, data := [] })
        [{ size := 252, offset := 0 }] =
      [{ size := 252, offset := 0 }].map (fun c =>
        { chunk := c,
          response := (fun (_ : String) => { status := 206, data := [] })
            ("bytes=" ++ (toString c.offset ++ "-"
              ++ toString (c.offset + c.size))) }) ∧
    ∀ c : Chunk, 0 ≤ c.size →
      (covers c c.offset ∧ covers c (c.offset + c.size)) :=
  downloadResults_range_headers (fun _ => { status := 206, data := [] })
    [{ size := 252, offset := 0 }]

lemma runTasksInOrder_length (run : Nat → α) (completed : List Nat)
    (slots : List (Option α)) :
    (runTasksInOrder run completed slots).length = slots.length := by
  induction completed generalizing slots with
  | nil => rfl
  | cons i rest ih => rw [runTasksInOrder, ih, List.length_set]

/-- Each slot of the completion-order run: index j holds run j once j has
completed (and was in range), and is untouched otherwise. -/
lemma runTasksInOrder_getElem (run : Nat → α) (completed : List Nat)
    (slots : List (Option α)) (j : Nat) :
    (runTasksInOrder run completed slots)[j]? =
      if j ∈ completed ∧ j < slots.length then some (some (run j))
      else slots[j]? := by
  induction completed generalizing slots with
  | nil => simp [runTasksInOrder]
  | cons i rest ih =>
    rw [runTasksInOrder, ih, List.length_set]
    by_cases hj : j < slots.length
    · by_cases hjr : j ∈ rest
      · simp [hjr, hj, List.mem_cons]
      · by_cases hij : i = j
        · subst hij
          simp [hjr, hj, List.getElem?_set, List.mem_cons]
        · simp only [hjr, hj, hij, List.getElem?_set, List.mem_cons,
            and_true, or_false, if_false, if_true]
          simp only [List.getElem?_eq_getElem hj]
          rw [if_neg (fun h => hij h.symm)]
    · rw [if_neg (fun h => hj h.2), if_neg (fun h => hj h.2)]
      rw [List.getElem?_eq_none (by rw [List.length_set]; omega),
        List.getElem?_eq_none (by omega)]

/-- Claim C9: whatever order the chunk fetches complete in, the gathered
result list has, at each index, the result of that index's chunk; each
result carries its own chunk; and a successful download returns the
payloads concatenated in chunk-index order. -/
theorem download_order_preservation (server : String → GetResponse)
    (chunks : List Chunk) (completed : List Nat)
    (hperm : completed.Perm (List.range chunks.length)) :
    runTasksInOrder (fun i => fetchChunk server (chunks.getD i default))
        completed (List.replicate chunks.length none)
      = (downloadResults server chunks).map some ∧
    (∀ i, i < chunks.length →
        ((downloadResults server chunks).getD i default).chunk
          = chunks.getD i default) ∧
    (∀ b, validateAndAssemble (downloadResults server chunks) = Except.ok b →
        b = ((downloadResults server chunks).map
              (fun r => r.response.data)).flatten) := by
  have hmemiff : ∀ j : Nat, j ∈ completed ↔ j < chunks.length := by
    intro j
    rw [hperm.mem_iff, List.mem_range]
  refine ⟨?_, ?_, ?_⟩
  · apply List.ext_getElem?
    intro j
    rw [runTasksInOrder_getElem, List.length_replicate]
    by_cases hj : j < chunks.length
    · rw [if_pos ⟨(hmemiff j).mpr hj, hj⟩]
      unfold downloadResults
      rw [List.getElem?_map, List.getElem?_map, List.getElem?_eq_getElem hj]
      rw [List.getD_eq_getElem chunks default hj]
      rfl
    · rw [if_neg (fun h => hj h.2)]
      rw [List.getElem?_eq_none (by rw [List.length_replicate]; omega),
        List.getElem?_eq_none (by simp [downloadResults]; omega)]
  · intro i hi
    unfold downloadResults
    rw [List.getD_eq_getElem _ default (by simpa using hi), List.getElem_map,
      List.getD_eq_getElem chunks default hi]
    rfl
  · intro b hb
    unfold validateAndAssemble at hb
    by_cases h : ((downloadResults server chunks).filter
        (fun r => !(r.response.status == 206))).length ≠ 0
    · rw [if_pos h] at hb
      exact absurd hb (by simp)
    · rw [if_neg h] at hb
      exact (Except.ok.inj hb).symm

/-- Witness for C9: two chunks completing in reverse order. -/
theorem download_order_preservation_witness :
    runTasksInOrder
        (fun i => fetchChunk (fun _ => { status := 206, data := [7] })
          ([{ size := 252, offset := 0 },
            { size := 248, offset := 253 }].getD i default))
        [1, 0]
        (List.replicate
          ([{ size := 252, offset := 0 },
            { size := 248, offset := 253 }] : List Chunk).length none)
      = (downloadResults (fun _ => { status := 206, data := [7] })
          [{ size := 252, offset := 0 },
           { size := 248, offset := 253 }]).map some ∧
    (∀ i, i < ([{ size := 252, offset := 0 },
                { size := 248, offset := 253 }] : List Chunk).length →
        ((downloadResults (fun _ => { status := 206, data := [7] })
            [{ size := 252, offset := 0 },
             { size := 248, offset := 253 }]).getD i default).chunk
          = [{ size := 252, offset := 0 },
             { size := 248, offset := 253 }].getD i default) ∧
    (∀ b, validateAndAssemble
          (downloadResults (fun _ => { status := 206, data := [7] })
            [{ size := 252, offset := 0 },
             { size := 248, offset := 253 }]) = Except.ok b →
        b = ((downloadResults (fun _ => { status := 206, data := [7] })
              [{ size := 252, offset := 0 },
               { size := 248, offset := 253 }]).map
                (fun r => r.response.data)).flatten) :=
  download_order_preservation (fun _ => { status := 206, data := [7] })
    [{ size := 252, offset := 0 }, { size := 248, offset := 253 }]
    [1, 0] (by decide)

end Multiget
